import Mathlib

/-!
Verification of the osm-transform two-pass OSM preprocessor.

The definitions below are a shallow embedding of the C++ sources:
FirstPassHandler (firstpass handler header), RewriteHandler
(rewrite_handler.cpp), LocationElevationService
(location_elevation_service.cpp) and LocationAreaService
(location_area_service.cpp).

Modelling conventions:
- OSM ids are modelled as integers; the id sets (osmium IdSetDense /
  IdSetSmall) are modelled as duplicate-free insertion lists with the
  same membership semantics as set(id)/get(id).
- The tag-removal regular expression is an arbitrary predicate
  rm : String -> Bool standing for boost regex_match on the tag key.
- doubles that only ever hold exactly representable coordinates /
  sentinels are modelled as rationals; the NODATA sentinel is -32768.
  The interpolation geometry, which takes a square root, is modelled
  over the reals in exact arithmetic.
- fallible C++ paths (exceptions, null-pointer dereference, casts of
  NaN or out-of-range doubles to int) are modelled with Except /
  explicit outcome constructors.
-/

/-- Sentinel elevation, kNoDataValue in geotiff.h. -/
def kNoDataValue : ℚ := -32768

/-- An OSM tag: key and value, as in osmium Tag. -/
structure Tag where
  key : String
  value : String
deriving DecidableEq, Repr

/-- An OSM way as seen by the handlers: id, ordered node references, tags. -/
structure Way where
  id : ℤ
  nodes : List ℤ
  tags : List Tag
deriving DecidableEq, Repr

/-- Member type of a relation member (osmium item_type). -/
inductive ItemType where
  | node
  | way
  | relation
deriving DecidableEq, Repr

/-- An OSM relation member. -/
structure RelMember where
  type : ItemType
  ref : ℤ
deriving DecidableEq, Repr

/-- An OSM relation. -/
structure Relation where
  id : ℤ
  members : List RelMember
  tags : List Tag
deriving DecidableEq, Repr

namespace FirstPass

/-- kInvalidatingTags of FirstPassHandler. -/
def kInvalidatingTags : List String :=
  ["building", "landuse", "boundary", "natural", "place", "waterway",
   "aeroway", "aviation", "military", "power", "communication", "man_made"]

/-- kNoElevationsKeys of FirstPassHandler. -/
def kNoElevationsKeys : List String := ["bridge", "tunnel", "cutting", "indoor"]

/-- FirstPassHandler::tag_validates. -/
def tag_validates (t : Tag) : Bool :=
  t.key == "highway" || t.key == "route" ||
  (t.key == "railway" && t.value == "platform") ||
  (t.key == "public_transport" && t.value == "platform") ||
  (t.key == "man_made" && t.value == "pier")

/-- FirstPassHandler::accept_tag: the key does not match the removal regex. -/
def accept_tag (rm : String → Bool) (t : Tag) : Bool := !(rm t.key)

/-- The loop body of FirstPassHandler::has_no_relevant_tags, with the two
mutable flags no_tags_remain and has_invalidating_tags passed explicitly. -/
def hnrtLoop (rm : String → Bool) : List Tag → Bool → Bool → Bool
  | [], noTagsRemain, hasInvalidating => noTagsRemain || hasInvalidating
  | t :: ts, noTagsRemain, hasInvalidating =>
    if accept_tag rm t then
      if tag_validates t then false
      else if kInvalidatingTags.contains t.key then hnrtLoop rm ts false true
      else hnrtLoop rm ts false hasInvalidating
    else hnrtLoop rm ts noTagsRemain hasInvalidating

/-- FirstPassHandler::has_no_relevant_tags. -/
def has_no_relevant_tags (rm : String → Bool) (tags : List Tag) : Bool :=
  hnrtLoop rm tags true false

/-- The specification wording for has_no_relevant_tags: true when no tag key
survives the removal regex; false when some surviving tag satisfies a
VALIDATING predicate; true when some surviving tag key is in the
INVALIDATING set; false otherwise. -/
def has_no_relevant_tags_spec (rm : String → Bool) (tags : List Tag) : Bool :=
  let filtered := tags.filter (accept_tag rm)
  if filtered.isEmpty then true
  else if filtered.any tag_validates then false
  else if filtered.any (fun t => kInvalidatingTags.contains t.key) then true
  else false

/-- FirstPassHandler::is_no_elevation. -/
def is_no_elevation (w : Way) : Bool :=
  w.tags.any (fun t => kNoElevationsKeys.contains t.key && t.value != "no")

/-- FirstPassHandler::is_removable for ways. -/
def is_removable (rm : String → Bool) (w : Way) : Bool :=
  w.nodes.length < 2 || has_no_relevant_tags rm w.tags

/-- FirstPassHandler::is_removable for relations. -/
def is_removable_rel (rm : String → Bool) (r : Relation) : Bool :=
  has_no_relevant_tags rm r.tags

/-- The id sets filled by the first pass: valid_ids_ and no_elevation_,
each nwr component modelled as an insertion list with set semantics. -/
structure FPState where
  validNodes : List ℤ
  validWays : List ℤ
  validRels : List ℤ
  noEleNodes : List ℤ
  noEleWays : List ℤ
deriving DecidableEq, Repr

/-- The empty id sets allocated before the first pass. -/
def fpInit : FPState := ⟨[], [], [], [], []⟩

/-- FirstPassHandler::way. -/
def fpWay (rm : String → Bool) (s : FPState) (w : Way) : FPState :=
  if w.id < 0 then s
  else if is_removable rm w then s
  else
    let s1 := { s with validNodes := w.nodes.foldl (fun acc r => acc.insert r) s.validNodes }
    let s2 :=
      if is_no_elevation w then
        { s1 with
          noEleNodes := w.nodes.foldl (fun acc r => acc.insert r) s1.noEleNodes,
          noEleWays := s1.noEleWays.insert w.id }
      else s1
    { s2 with validWays := s2.validWays.insert w.id }

/-- FirstPassHandler::relation. -/
def fpRel (rm : String → Bool) (s : FPState) (r : Relation) : FPState :=
  if r.id < 0 then s
  else if is_removable_rel rm r then s
  else
    let nodeMembers := r.members.filter (fun (m : RelMember) => m.type == ItemType.node)
    let s1 := { s with validNodes := nodeMembers.foldl (fun acc (m : RelMember) => acc.insert m.ref) s.validNodes }
    { s1 with validRels := s1.validRels.insert r.id }

/-- One element of the first pass input stream (nodes are skipped by the
relevant logic: the node callback only updates statistics). -/
inductive FPEvent where
  | way (w : Way)
  | rel (r : Relation)
deriving DecidableEq, Repr

/-- Dispatch of one first-pass visit. -/
def fpStep (rm : String → Bool) (s : FPState) : FPEvent → FPState
  | .way w => fpWay rm s w
  | .rel r => fpRel rm s r

/-- Running the first pass over a stream of ways and relations. -/
def fpRun (rm : String → Bool) (s : FPState) (es : List FPEvent) : FPState :=
  es.foldl (fpStep rm) s

/-- The ways appearing in a first-pass stream. -/
def wayEvents : List FPEvent → List Way
  | [] => []
  | .way w :: es => w :: wayEvents es
  | .rel _ :: es => wayEvents es

end FirstPass

namespace FirstPass

/-- Closed form of the has_no_relevant_tags loop for arbitrary values of the
two flag accumulators. -/
theorem hnrtLoop_eq (rm : String → Bool) (ts : List Tag) (ntr hi : Bool) :
    hnrtLoop rm ts ntr hi =
      (if (ts.filter (accept_tag rm)).any tag_validates then false
       else ((ntr && (ts.filter (accept_tag rm)).isEmpty) || hi ||
             (ts.filter (accept_tag rm)).any (fun t => kInvalidatingTags.contains t.key))) := by
  induction ts generalizing ntr hi with
  | nil => simp [hnrtLoop]
  | cons t ts ih =>
    cases ha : accept_tag rm t with
    | false => simp [hnrtLoop, ha, ih]
    | true =>
      cases hv : tag_validates t with
      | true => simp [hnrtLoop, ha, hv]
      | false =>
        cases hk : kInvalidatingTags.contains t.key with
        | true =>
          have hk' : t.key ∈ kInvalidatingTags := by simpa using hk
          simp [hnrtLoop, ha, hv, hk, ih, hk']
        | false =>
          have hk' : t.key ∉ kInvalidatingTags := by simpa using hk
          simp [hnrtLoop, ha, hv, hk, ih, hk']

/-- The loop in FirstPassHandler::has_no_relevant_tags computes exactly the
case analysis stated in the specification. -/
theorem has_no_relevant_tags_eq_spec (rm : String → Bool) (tags : List Tag) :
    has_no_relevant_tags rm tags = has_no_relevant_tags_spec rm tags := by
  rw [has_no_relevant_tags, hnrtLoop_eq, has_no_relevant_tags_spec]
  cases hl : tags.filter (accept_tag rm) with
  | nil => simp
  | cons t ts =>
    cases hv : (t :: ts).any tag_validates with
    | true => simp [hv]
    | false =>
      simp only [hv, List.isEmpty_cons, Bool.false_eq_true, if_false, Bool.true_and]
      rw [Bool.eq_iff_iff]
      simp

/-- Membership after repeatedly inserting the elements of a list into an
insertion-list id set. -/
theorem mem_foldl_insert (l : List ℤ) (init : List ℤ) (a : ℤ) :
    (a ∈ l.foldl (fun acc r => acc.insert r) init) ↔ (a ∈ init ∨ a ∈ l) := by
  induction l generalizing init with
  | nil => simp
  | cons x xs ih =>
    simp only [List.foldl_cons, ih, List.mem_insert_iff, List.mem_cons]
    tauto

/-- is_removable is false exactly when the way has at least two node
references and the specification case analysis yields false. -/
theorem is_removable_eq_false_iff (rm : String → Bool) (w : Way) :
    is_removable rm w = false ↔
      (2 ≤ w.nodes.length ∧ has_no_relevant_tags_spec rm w.tags = false) := by
  simp [is_removable, has_no_relevant_tags_eq_spec, Nat.not_lt]

end FirstPass


namespace FirstPass

/-- C1: a way with non-negative id visited by the first pass is retained
(its id added to valid_ids.ways() and all its node refs to
valid_ids.nodes()) exactly when it has at least 2 node references and the
specification case analysis for has_no_relevant_tags yields false. -/
theorem c1_way_retention (rm : String → Bool) (s : FPState) (w : Way)
    (hid : 0 ≤ w.id) (hnew : w.id ∉ s.validWays) :
    ((w.id ∈ (fpWay rm s w).validWays ∧ ∀ r ∈ w.nodes, r ∈ (fpWay rm s w).validNodes)
      ↔ (2 ≤ w.nodes.length ∧ has_no_relevant_tags_spec rm w.tags = false)) := by
  have hid' : ¬ (w.id < 0) := not_lt.mpr hid
  cases hrem : is_removable rm w with
  | true =>
    have hrhs : ¬ (2 ≤ w.nodes.length ∧ has_no_relevant_tags_spec rm w.tags = false) := by
      intro hcon
      rw [← is_removable_eq_false_iff rm w] at hcon
      rw [hrem] at hcon
      simp at hcon
    simp [fpWay, hid', hrem, hrhs, hnew]
  | false =>
    have hc := (is_removable_eq_false_iff rm w).mp hrem
    cases hne : is_no_elevation w with
    | true =>
      simp only [fpWay, hid', if_false, hrem, hne]
      simp [mem_foldl_insert, List.mem_insert_iff, hc]
      exact fun r hr => Or.inr hr
    | false =>
      simp only [fpWay, hid', if_false, hrem, hne]
      simp [mem_foldl_insert, List.mem_insert_iff, hc]
      exact fun r hr => Or.inr hr

/-- The always-false removal predicate (a regex matching no key). -/
def rmNone : String → Bool := fun _ => false

/-- Concrete way used by the c1 witness. -/
def wC1 : Way := ⟨10, [101, 102], [⟨"highway", "yes"⟩]⟩

/-- Witness for c1_way_retention at a concrete retained way. -/
theorem c1_way_retention_witness :
    ((wC1.id ∈ (fpWay rmNone fpInit wC1).validWays ∧
        ∀ r ∈ wC1.nodes, r ∈ (fpWay rmNone fpInit wC1).validNodes)
      ↔ (2 ≤ wC1.nodes.length ∧ has_no_relevant_tags_spec rmNone wC1.tags = false)) :=
  c1_way_retention rmNone fpInit wC1 (by decide) (by decide)

end FirstPass

namespace FirstPass

/-- Membership after inserting the images of a list under a key function. -/
theorem mem_foldl_insert_gen {α : Type} (f : α → ℤ) (l : List α) (init : List ℤ) (a : ℤ) :
    (a ∈ l.foldl (fun acc x => acc.insert (f x)) init) ↔ (a ∈ init ∨ ∃ x ∈ l, f x = a) := by
  induction l generalizing init with
  | nil => simp
  | cons x xs ih =>
    simp only [List.foldl_cons, ih, List.mem_insert_iff, List.mem_cons]
    constructor
    · rintro ((rfl | h) | ⟨y, hy, hfy⟩)
      · exact Or.inr ⟨x, Or.inl rfl, rfl⟩
      · exact Or.inl h
      · exact Or.inr ⟨y, Or.inr hy, hfy⟩
    · rintro (h | ⟨y, rfl | hy, hfy⟩)
      · exact Or.inl (Or.inr h)
      · exact Or.inl (Or.inl hfy.symm)
      · exact Or.inr ⟨y, hy, hfy⟩

/-- FirstPassHandler::relation never touches the set of valid way ids. -/
theorem fpRel_validWays (rm : String → Bool) (s : FPState) (r : Relation) :
    (fpRel rm s r).validWays = s.validWays := by
  unfold fpRel
  split_ifs <;> rfl

/-- Membership in valid_ids.ways() after one way visit: either the id was
already there, or the visited way is kept (non-negative id, not removable)
and the id is its id. -/
theorem fpWay_validWays_mem (rm : String → Bool) (s : FPState) (w : Way) (a : ℤ) :
    (a ∈ (fpWay rm s w).validWays) ↔
      (a ∈ s.validWays ∨ (¬ w.id < 0 ∧ is_removable rm w = false ∧ a = w.id)) := by
  unfold fpWay
  split_ifs with h1 h2 hne
  · simp [h1]
  · simp [h1, h2]
  · have h2' : is_removable rm w = false := by simpa using h2
    simp [List.mem_insert_iff, h1, h2', or_comm]
  · have h2' : is_removable rm w = false := by simpa using h2
    simp [List.mem_insert_iff, h1, h2', or_comm]

/-- One first-pass visit only grows valid_ids.nodes(). -/
theorem validNodes_mono_step (rm : String → Bool) (s : FPState) (e : FPEvent) (a : ℤ)
    (h : a ∈ s.validNodes) : a ∈ (fpStep rm s e).validNodes := by
  cases e with
  | way w =>
    show a ∈ (fpWay rm s w).validNodes
    unfold fpWay
    split_ifs with h1 h2 hne
    · exact h
    · exact h
    · simp [mem_foldl_insert, h]
    · simp [mem_foldl_insert, h]
  | rel r =>
    show a ∈ (fpRel rm s r).validNodes
    unfold fpRel
    split_ifs with h1 h2
    · exact h
    · exact h
    · simp [mem_foldl_insert_gen, h]

/-- The whole first pass only grows valid_ids.nodes(). -/
theorem validNodes_mono_run (rm : String → Bool) (es : List FPEvent) :
    ∀ (s : FPState) (a : ℤ), a ∈ s.validNodes → a ∈ (fpRun rm s es).validNodes := by
  induction es with
  | nil => intro s a h; exact h
  | cons e es ih =>
    intro s a h
    exact ih (fpStep rm s e) a (validNodes_mono_step rm s e a h)

/-- Unfolding one event of a first-pass run. -/
theorem fpRun_cons (rm : String → Bool) (s : FPState) (e : FPEvent) (es : List FPEvent) :
    fpRun rm s (e :: es) = fpRun rm (fpStep rm s e) es := rfl

/-- Every id in valid_ids.ways() after a run either was there initially or
comes from a kept way event of the stream. -/
theorem validWays_origin (rm : String → Bool) (es : List FPEvent) :
    ∀ (s : FPState) (a : ℤ), a ∈ (fpRun rm s es).validWays →
      a ∈ s.validWays ∨
        ∃ w, w ∈ wayEvents es ∧ w.id = a ∧ ¬ w.id < 0 ∧ is_removable rm w = false := by
  induction es with
  | nil => intro s a h; exact Or.inl h
  | cons e es ih =>
    intro s a h
    rw [fpRun_cons] at h
    rcases ih (fpStep rm s e) a h with hs | ⟨w, hw, rfl, hneg, hrem⟩
    · cases e with
      | way w0 =>
        rcases (fpWay_validWays_mem rm s w0 a).mp hs with h' | ⟨hneg, hrem, rfl⟩
        · exact Or.inl h'
        · exact Or.inr ⟨w0, by simp [wayEvents], rfl, hneg, hrem⟩
      | rel r0 =>
        rw [show fpStep rm s (.rel r0) = fpRel rm s r0 from rfl, fpRel_validWays] at hs
        exact Or.inl hs
    · refine Or.inr ⟨w, ?_, rfl, hneg, hrem⟩
      cases e <;> simp [wayEvents, hw]

/-- A kept way's node references all enter valid_ids.nodes() at its visit. -/
theorem fpWay_retained_refs (rm : String → Bool) (s : FPState) (w : Way)
    (hneg : ¬ w.id < 0) (hrem : is_removable rm w = false) :
    ∀ r ∈ w.nodes, r ∈ (fpWay rm s w).validNodes := by
  intro r hr
  unfold fpWay
  rw [if_neg hneg, hrem]
  cases hne : is_no_elevation w <;>
    simp [hne, mem_foldl_insert, hr]

end FirstPass

namespace FirstPass

/-- Generalized closure invariant for the amended C2: starting from a state
whose valid way set avoids the ids of the stream's ways, if the stream's
ways carry pairwise distinct ids, then every way of the stream whose id
ends up in valid_ids.ways() has all its node references in
valid_ids.nodes(). -/
theorem fpRun_closure (rm : String → Bool) :
    ∀ (es : List FPEvent) (s : FPState),
      (wayEvents es).Pairwise (fun a b => a.id ≠ b.id) →
      (∀ w ∈ wayEvents es, w.id ∉ s.validWays) →
      ∀ w ∈ wayEvents es, w.id ∈ (fpRun rm s es).validWays →
      ∀ r ∈ w.nodes, r ∈ (fpRun rm s es).validNodes := by
  intro es
  induction es with
  | nil => intro s _ _ w hw; simp [wayEvents] at hw
  | cons e es ih =>
    intro s hp hs w hw hmem r hr
    cases e with
    | rel r0 =>
      have hw' : w ∈ wayEvents es := by simpa [wayEvents] using hw
      have hs' : ∀ w' ∈ wayEvents es, w'.id ∉ (fpRel rm s r0).validWays := by
        intro w' hmem'
        rw [fpRel_validWays]
        exact hs w' (by simpa [wayEvents] using hmem')
      have hp' : (wayEvents es).Pairwise (fun a b => a.id ≠ b.id) := by
        simpa [wayEvents] using hp
      rw [fpRun_cons] at hmem ⊢
      exact ih (fpRel rm s r0) hp' hs' w hw' hmem r hr
    | way w0 =>
      have hsplit : w = w0 ∨ w ∈ wayEvents es := by simpa [wayEvents] using hw
      have hpc : (∀ b ∈ wayEvents es, w0.id ≠ b.id) ∧
          (wayEvents es).Pairwise (fun a b => a.id ≠ b.id) := by
        simpa [wayEvents, List.pairwise_cons] using hp
      have hphead := hpc.1
      have hptail := hpc.2
      rw [fpRun_cons] at hmem ⊢
      rcases hsplit with rfl | hw'
      · -- the way under scrutiny is the head event
        by_cases hneg : w.id < 0
        · exfalso
          have hstep : fpStep rm s (.way w) = s := by
            show fpWay rm s w = s
            unfold fpWay
            rw [if_pos hneg]
          rw [hstep] at hmem
          rcases validWays_origin rm es s w.id hmem with hin | ⟨w', hw', hid', _, _⟩
          · exact hs w (by simp [wayEvents]) hin
          · exact hphead w' hw' hid'.symm
        · cases hrem : is_removable rm w with
          | true =>
            exfalso
            have hstep : fpStep rm s (.way w) = s := by
              show fpWay rm s w = s
              unfold fpWay
              rw [if_neg hneg, hrem, if_pos rfl]
            rw [hstep] at hmem
            rcases validWays_origin rm es s w.id hmem with hin | ⟨w', hw', hid', _, _⟩
            · exact hs w (by simp [wayEvents]) hin
            · exact hphead w' hw' hid'.symm
          | false =>
            have hbase : r ∈ (fpWay rm s w).validNodes :=
              fpWay_retained_refs rm s w hneg hrem r hr
            exact validNodes_mono_run rm es (fpStep rm s (.way w)) r hbase
      · -- the way under scrutiny sits in the tail
        have hs' : ∀ w' ∈ wayEvents es, w'.id ∉ (fpWay rm s w0).validWays := by
          intro w' hmem' hin
          rcases (fpWay_validWays_mem rm s w0 w'.id).mp hin with hold | ⟨_, _, hid'⟩
          · exact hs w' (by simpa [wayEvents] using Or.inr hmem') hold
          · exact hphead w' hmem' hid'.symm
        exact ih (fpWay rm s w0) hptail hs' w hw' hmem r hr

/-- C2 (amended): after the first pass on a stream whose ways carry
pairwise distinct ids, every node reference of every way whose id is in
valid_ids.ways() is in valid_ids.nodes(). -/
theorem c2_retained_refs_closed (rm : String → Bool) (es : List FPEvent)
    (hu : (wayEvents es).Pairwise (fun a b => a.id ≠ b.id)) :
    ∀ w ∈ wayEvents es, w.id ∈ (fpRun rm fpInit es).validWays →
      ∀ r ∈ w.nodes, r ∈ (fpRun rm fpInit es).validNodes :=
  fpRun_closure rm es fpInit hu (by intro w _ hin; simp [fpInit] at hin)

/-- A retained way and a discarded way sharing the id 5. -/
def wDupA : Way := ⟨5, [1, 2], [⟨"highway", "x"⟩]⟩

/-- The discarded duplicate: one node reference only, hence removable. -/
def wDupB : Way := ⟨5, [3], [⟨"highway", "x"⟩]⟩

/-- The two-way stream exercising the duplicate-id hole of C2. -/
def esDup : List FPEvent := [.way wDupA, .way wDupB]

/-- Counterexample to C2 as stated: with two way entries sharing id 5, the
discarded entry's node reference 3 is missing from valid_ids.nodes()
although id 5 is in valid_ids.ways(). -/
theorem c2_counterexample :
    FPEvent.way wDupB ∈ esDup ∧
      wDupB.id ∈ (fpRun rmNone fpInit esDup).validWays ∧
      (3 : ℤ) ∈ wDupB.nodes ∧
      (3 : ℤ) ∉ (fpRun rmNone fpInit esDup).validNodes := by
  decide

/-- Witness for c2_retained_refs_closed on a concrete duplicate-free
stream. -/
theorem c2_retained_refs_closed_witness :
    (wayEvents [FPEvent.way wC1]).Pairwise (fun a b => a.id ≠ b.id) ∧
      (∀ w ∈ wayEvents [FPEvent.way wC1],
        w.id ∈ (fpRun rmNone fpInit [FPEvent.way wC1]).validWays →
        ∀ r ∈ w.nodes, r ∈ (fpRun rmNone fpInit [FPEvent.way wC1]).validNodes) :=
  ⟨by decide, c2_retained_refs_closed rmNone [FPEvent.way wC1] (by decide)⟩

end FirstPass

/-- A WGS84 location (lon, lat) as handed around by the handlers. -/
def Loc : Type := ℚ × ℚ

instance : DecidableEq Loc := instDecidableEqProd

/-- An OSM node as seen by the rewrite handler. -/
structure Node where
  id : ℤ
  loc : Loc
  tags : List Tag

namespace Rewrite

/-- The tag-copy loop of RewriteHandler::copy_tags (node overload): drop
keys matching the removal regex, drop country always and ele when
elevation enrichment is on, copy the rest in order. -/
def copyTagsLoop (rm : String → Bool) (addEle : Bool) : List Tag → List Tag
  | [] => []
  | t :: ts =>
    if rm t.key then copyTagsLoop rm addEle ts
    else if t.key == "country" || (t.key == "ele" && addEle) then copyTagsLoop rm addEle ts
    else t :: copyTagsLoop rm addEle ts

/-- RewriteHandler::copy_tags(parent, tags, ele, countries): the loop above
followed by the conditional ele and country appends. fmt stands for
std::to_string on the elevation double. -/
def copy_tags (rm : String → Bool) (fmt : ℚ → String) (addEle : Bool)
    (tags : List Tag) (ele : ℚ) (countries : List String) : List Tag :=
  copyTagsLoop rm addEle tags
    ++ (if kNoDataValue < ele then [⟨"ele", fmt ele⟩] else [])
    ++ (if countries.isEmpty then [] else [⟨"country", String.intercalate "," countries⟩])

/-- The tag list RewriteHandler::node emits for a retained node: the
elevation is looked up only when add_elevation_ is set and the elevation
service is initialized, otherwise it stays at the NODATA sentinel. -/
def nodeTags (rm : String → Bool) (fmt : ℚ → String) (addEle eleInit : Bool)
    (eleLookup : Loc → ℚ) (areas : Loc → List String) (n : Node) : List Tag :=
  let ele := if addEle && eleInit then eleLookup n.loc else kNoDataValue
  copy_tags rm fmt addEle n.tags ele (areas n.loc)

/-- Number of tags of a list carrying a given key. -/
def countKey (l : List Tag) (k : String) : ℕ :=
  (l.filter (fun t => t.key == k)).length

/-- The specification predicate: a tag is copied when its key neither
matches the removal regex nor is country nor is ele-under-enrichment. -/
def keptTag (rm : String → Bool) (addEle : Bool) (t : Tag) : Bool :=
  !(rm t.key) && !(t.key == "country" || (t.key == "ele" && addEle))

/-- The copy loop is the filter by keptTag, preserving order. -/
theorem copyTagsLoop_eq_filter (rm : String → Bool) (addEle : Bool) (tags : List Tag) :
    copyTagsLoop rm addEle tags = tags.filter (keptTag rm addEle) := by
  induction tags with
  | nil => simp [copyTagsLoop]
  | cons t ts ih =>
    cases h1 : rm t.key with
    | true => simp [copyTagsLoop, h1, ih, keptTag]
    | false =>
      cases h2 : (t.key == "country" || (t.key == "ele" && addEle)) with
      | true => simp [copyTagsLoop, h1, h2, ih, keptTag]
      | false => simp [copyTagsLoop, h1, h2, ih, keptTag]

/-- countKey distributes over append. -/
theorem countKey_append (a b : List Tag) (k : String) :
    countKey (a ++ b) k = countKey a k + countKey b k := by
  simp [countKey, List.filter_append]

/-- Filtering first can only lower a key count. -/
theorem countKey_filter_le (p : Tag → Bool) (l : List Tag) (k : String) :
    countKey (l.filter p) k ≤ countKey l k := by
  have hsub : List.Sublist ((l.filter p).filter (fun t => t.key == k))
      (l.filter (fun t => t.key == k)) :=
    List.Sublist.filter _ (List.filter_sublist l)
  simpa [countKey] using hsub.length_le

/-- No country key survives the copy loop. -/
theorem countKey_kept_country (rm : String → Bool) (addEle : Bool) (l : List Tag) :
    countKey (l.filter (keptTag rm addEle)) "country" = 0 := by
  simp only [countKey, List.length_eq_zero, List.filter_filter]
  rw [List.filter_eq_nil_iff]
  intro t _
  cases ht : t.key == "country" <;> simp [keptTag, ht]

/-- With elevation enrichment on, no ele key survives the copy loop. -/
theorem countKey_kept_ele (rm : String → Bool) (l : List Tag) :
    countKey (l.filter (keptTag rm true)) "ele" = 0 := by
  simp only [countKey, List.length_eq_zero, List.filter_filter]
  rw [List.filter_eq_nil_iff]
  intro t _
  cases ht : t.key == "ele" <;> simp [keptTag, ht]

/-- C3: the tag list emitted for a retained node equals the kept input tags
in order followed by the conditional single ele append (exactly when the
computed elevation exceeds NODATA) and the conditional single country
append (exactly when the area list is non-empty); under the OSM guarantee
that the input tag list carries at most one ele key, the output carries at
most one ele tag and at most one country tag. -/
theorem c3_copy_tags (rm : String → Bool) (fmt : ℚ → String) (addEle eleInit : Bool)
    (eleLookup : Loc → ℚ) (areas : Loc → List String) (n : Node)
    (hu : countKey n.tags "ele" ≤ 1) :
    ((nodeTags rm fmt addEle eleInit eleLookup areas n =
      n.tags.filter (keptTag rm addEle)
        ++ (if kNoDataValue < (if addEle && eleInit then eleLookup n.loc else kNoDataValue)
            then [⟨"ele", fmt (if addEle && eleInit then eleLookup n.loc else kNoDataValue)⟩]
            else [])
        ++ (if (areas n.loc).isEmpty then []
            else [⟨"country", String.intercalate "," (areas n.loc)⟩]))
    ∧ countKey (nodeTags rm fmt addEle eleInit eleLookup areas n) "ele" ≤ 1
    ∧ countKey (nodeTags rm fmt addEle eleInit eleLookup areas n) "country" ≤ 1) := by
  have heq : nodeTags rm fmt addEle eleInit eleLookup areas n =
      n.tags.filter (keptTag rm addEle)
        ++ (if kNoDataValue < (if addEle && eleInit then eleLookup n.loc else kNoDataValue)
            then [⟨"ele", fmt (if addEle && eleInit then eleLookup n.loc else kNoDataValue)⟩]
            else [])
        ++ (if (areas n.loc).isEmpty then []
            else [⟨"country", String.intercalate "," (areas n.loc)⟩]) := by
    simp only [nodeTags, copy_tags, copyTagsLoop_eq_filter]
  refine ⟨heq, ?_, ?_⟩
  · rw [heq, countKey_append, countKey_append]
    have hC : countKey (if (areas n.loc).isEmpty then []
        else [⟨"country", String.intercalate "," (areas n.loc)⟩]) "ele" = 0 := by
      cases h : (areas n.loc).isEmpty <;> simp [countKey]
    cases addEle with
    | true =>
      have hA := countKey_kept_ele rm n.tags
      have hB : countKey (if kNoDataValue < (if (true && eleInit : Bool) then eleLookup n.loc else kNoDataValue)
          then [⟨"ele", fmt (if (true && eleInit : Bool) then eleLookup n.loc else kNoDataValue)⟩]
          else []) "ele" ≤ 1 := by
        split <;> split <;> simp [countKey]
      omega
    | false =>
      have hA : countKey (n.tags.filter (keptTag rm false)) "ele" ≤ 1 :=
        le_trans (countKey_filter_le _ _ _) hu
      have hB : countKey (if kNoDataValue < (if (false && eleInit : Bool) then eleLookup n.loc else kNoDataValue)
          then [⟨"ele", fmt (if (false && eleInit : Bool) then eleLookup n.loc else kNoDataValue)⟩]
          else []) "ele" = 0 := by
        simp [countKey]
      omega
  · rw [heq, countKey_append, countKey_append]
    have hA := countKey_kept_country rm addEle n.tags
    have hB : countKey (if kNoDataValue < (if addEle && eleInit then eleLookup n.loc else kNoDataValue)
        then [⟨"ele", fmt (if addEle && eleInit then eleLookup n.loc else kNoDataValue)⟩]
        else []) "country" = 0 := by
      split <;> simp [countKey]
    have hC : countKey (if (areas n.loc).isEmpty then []
        else [⟨"country", String.intercalate "," (areas n.loc)⟩]) "country" ≤ 1 := by
      cases h : (areas n.loc).isEmpty <;> simp [countKey]
    omega

end Rewrite

namespace Rewrite

/-- A removal regex matching exactly the key note. -/
def rmC3 : String → Bool := fun s => s == "note"

/-- Concrete stand-in for std::to_string in the witness. -/
def fmtC3 : ℚ → String := fun _ => "100.000000"

/-- Concrete elevation lookup for the witness. -/
def lookC3 : Loc → ℚ := fun _ => 100

/-- Concrete area lookup for the witness. -/
def areasC3 : Loc → List String := fun _ => ["BEL"]

/-- Concrete node for the witness, with a note tag, stale ele and country
tags and an ordinary tag. -/
def nC3 : Node := ⟨91142609, ((6 : ℚ), (50 : ℚ)), [⟨"note", "x"⟩, ⟨"ele", "5"⟩, ⟨"country", "DEU"⟩, ⟨"name", "k"⟩]⟩

/-- Witness for c3_copy_tags at a concrete node with enrichment enabled. -/
theorem c3_copy_tags_witness :
    ((nodeTags rmC3 fmtC3 true true lookC3 areasC3 nC3 =
      nC3.tags.filter (keptTag rmC3 true)
        ++ (if kNoDataValue < (if (true && true : Bool) then lookC3 nC3.loc else kNoDataValue)
            then [⟨"ele", fmtC3 (if (true && true : Bool) then lookC3 nC3.loc else kNoDataValue)⟩]
            else [])
        ++ (if (areasC3 nC3.loc).isEmpty then []
            else [⟨"country", String.intercalate "," (areasC3 nC3.loc)⟩]))
    ∧ countKey (nodeTags rmC3 fmtC3 true true lookC3 areasC3 nC3) "ele" ≤ 1
    ∧ countKey (nodeTags rmC3 fmtC3 true true lookC3 areasC3 nC3) "country" ≤ 1) :=
  c3_copy_tags rmC3 fmtC3 true true lookC3 areasC3 nC3 (by decide)

end Rewrite

/-- A sampled point of an elevation profile (struct LocationElevation). -/
structure LocationElevation where
  location : Loc
  ele : ℚ
deriving DecidableEq

namespace Rewrite

/-- The C abs function on doubles, modelled on the rationals. -/
def ratAbs (q : ℚ) : ℚ := if q < 0 then -q else q

/-- ratAbs is the absolute value. -/
theorem ratAbs_eq_abs (q : ℚ) : ratAbs q = |q| := by
  unfold ratAbs
  split_ifs with h
  · exact (abs_of_neg h).symm
  · exact (abs_of_nonneg (not_lt.mp h)).symm

/-- The interior loop of RewriteHandler::interpolate over one segment
profile, presented on the list of (before, current, after) sample triples
(les[index-1], les[index], les[index+1] for index = 1 .. les.size()-2),
threading the synthetic node id counter next_node_id_. Returns the refs
appended to the way, the new nodes emitted into the node buffer, and the
final counter. -/
def interiorLoop (thr : ℚ) :
    List (LocationElevation × LocationElevation × LocationElevation) → ℤ →
      List ℤ × List (ℤ × LocationElevation) × ℤ
  | [], nid => ([], [], nid)
  | (a, c, b) :: rest, nid =>
    if c.ele = kNoDataValue then interiorLoop thr rest nid
    else if thr ≤ ratAbs (c.ele - (a.ele + b.ele) / 2) then
      let res := interiorLoop thr rest (nid + 1)
      (nid :: res.1, (nid, c) :: res.2.1, res.2.2)
    else interiorLoop thr rest nid

/-- The (before, current, after) triples of a profile. -/
def triples (l : List LocationElevation) :
    List (LocationElevation × LocationElevation × LocationElevation) :=
  l.zip ((l.drop 1).zip (l.drop 2))

/-- The interior loop including its bound computation: on an empty profile
the size_t expression les.size() - 1 underflows and les.at(0) throws
std::out_of_range, modelled as an error. -/
def interior (thr : ℚ) (les : List LocationElevation) (nid : ℤ) :
    Except Unit (List ℤ × List (ℤ × LocationElevation) × ℤ) :=
  if les.isEmpty then Except.error ()
  else Except.ok (interiorLoop thr (triples les) nid)

/-- The per-pair loop of RewriteHandler::interpolate after the first ref
has been emitted: for each further ref, run the interior loop on the
profile from the previous location, then emit the ref itself. -/
def interpGo (les : Loc → Loc → List LocationElevation) (locIdx : ℤ → Loc) (thr : ℚ) :
    Loc → List ℤ → ℤ → Except Unit (List ℤ × List (ℤ × LocationElevation) × ℤ)
  | _, [], nid => Except.ok ([], [], nid)
  | fromLoc, toRef :: rest, nid =>
    match interior thr (les fromLoc (locIdx toRef)) nid with
    | Except.error e => Except.error e
    | Except.ok r1 =>
      match interpGo les locIdx thr (locIdx toRef) rest r1.2.2 with
      | Except.error e => Except.error e
      | Except.ok r2 => Except.ok (r1.1 ++ toRef :: r2.1, r1.2.1 ++ r2.2.1, r2.2.2)

/-- RewriteHandler::interpolate: emit the first ref, then loop over the
remaining refs. way.nodes()[0] on an empty ref list is out of bounds
(unreachable for retained ways, which have at least 2 refs). -/
def interpolateWay (les : Loc → Loc → List LocationElevation) (locIdx : ℤ → Loc)
    (thr : ℚ) (w : Way) (nid : ℤ) :
    Except Unit (List ℤ × List (ℤ × LocationElevation) × ℤ) :=
  match w.nodes with
  | [] => Except.error ()
  | f :: rest =>
    match interpGo les locIdx thr (locIdx f) rest nid with
    | Except.error e => Except.error e
    | Except.ok r => Except.ok (f :: r.1, r.2.1, r.2.2)

/-- RewriteHandler::add_refs: interpolate only when the interpolate flag is
set, the elevation service is initialized and the way is not in
no_elevation.ways(); otherwise copy the references unchanged. -/
def add_refs (interp eleInit : Bool) (noEleWays : List ℤ)
    (les : Loc → Loc → List LocationElevation) (locIdx : ℤ → Loc) (thr : ℚ)
    (w : Way) (nid : ℤ) :
    Except Unit (List ℤ × List (ℤ × LocationElevation) × ℤ) :=
  if interp && eleInit && !(noEleWays.contains w.id) then
    interpolateWay les locIdx thr w nid
  else Except.ok (w.nodes, [], nid)

/-- C5: when the way is flagged no-elevation, or interpolation is disabled,
or the elevation service is not initialized, the rewrite pass emits the
node-reference list unchanged and allocates no synthetic node. -/
theorem c5_no_interpolation (interp eleInit : Bool) (noEleWays : List ℤ)
    (les : Loc → Loc → List LocationElevation) (locIdx : ℤ → Loc) (thr : ℚ)
    (w : Way) (nid : ℤ)
    (h : interp = false ∨ eleInit = false ∨ w.id ∈ noEleWays) :
    add_refs interp eleInit noEleWays les locIdx thr w nid =
      Except.ok (w.nodes, [], nid) := by
  unfold add_refs
  rcases h with rfl | rfl | hmem
  · simp
  · simp
  · have hc : noEleWays.contains w.id = true := by
      simp [List.contains_eq_any_beq]
      exact hmem
    simp [hc]
    intro _ _ hno
    exact absurd hmem hno

/-- Concrete no-elevation way for the c5 witness. -/
def wC5 : Way := ⟨7, [1, 2, 3], [⟨"highway", "primary"⟩, ⟨"tunnel", "yes"⟩]⟩

/-- Constant elevation profile oracle used by witnesses. -/
def lesC5 : Loc → Loc → List LocationElevation := fun _ _ => []

/-- Constant location index used by witnesses. -/
def locIdxC5 : ℤ → Loc := fun _ => ((0 : ℚ), (0 : ℚ))

/-- Witness for c5_no_interpolation: interpolation enabled and initialized,
but the way is in no_elevation.ways(). -/
theorem c5_no_interpolation_witness :
    add_refs true true [7] lesC5 locIdxC5 (1 / 2) wC5 1000000000 =
      Except.ok (wC5.nodes, [], 1000000000) :=
  c5_no_interpolation true true [7] lesC5 locIdxC5 (1 / 2) wC5 1000000000
    (Or.inr (Or.inr (by decide)))

end Rewrite


namespace Rewrite

/-- The synthetic ids emitted by the interior loop lie in the half-open
interval from the incoming counter to the returned counter. -/
theorem interiorLoop_bounds (thr : ℚ) :
    ∀ (l : List (LocationElevation × LocationElevation × LocationElevation)) (nid : ℤ),
      nid ≤ (interiorLoop thr l nid).2.2 ∧
      ∀ x ∈ (interiorLoop thr l nid).1, nid ≤ x ∧ x < (interiorLoop thr l nid).2.2 := by
  intro l
  induction l with
  | nil => intro nid; simp [interiorLoop]
  | cons t rest ih =>
    intro nid
    obtain ⟨a, c, b⟩ := t
    by_cases h1 : c.ele = kNoDataValue
    · simpa [interiorLoop, h1] using ih nid
    · by_cases h2 : thr ≤ ratAbs (c.ele - (a.ele + b.ele) / 2)
      · have ihn := ih (nid + 1)
        constructor
        · simp only [interiorLoop, if_neg h1, if_pos h2]
          exact le_trans (by omega) ihn.1
        · intro x hx
          simp only [interiorLoop, if_neg h1, if_pos h2, List.mem_cons] at hx ⊢
          rcases hx with rfl | hx
          · exact ⟨le_refl x, lt_of_lt_of_le (by omega) ihn.1⟩
          · have hb := ihn.2 x hx
            exact ⟨by omega, hb.2⟩
      · simpa [interiorLoop, h1, h2] using ih nid

/-- Decomposition of the per-pair loop: on success the counter never
decreases and the emitted refs are the original refs in order, each
preceded by a block of freshly allocated synthetic ids. -/
theorem interpGo_decomp (les : Loc → Loc → List LocationElevation) (locIdx : ℤ → Loc)
    (thr : ℚ) :
    ∀ (rest : List ℤ) (fromLoc : Loc) (nid : ℤ) (r : List ℤ)
      (ns : List (ℤ × LocationElevation)) (nidF : ℤ),
      interpGo les locIdx thr fromLoc rest nid = Except.ok (r, ns, nidF) →
      nid ≤ nidF ∧
      ∃ segs : List (List ℤ), segs.length = rest.length ∧
        r = (segs.zip rest).flatMap (fun p => p.1 ++ [p.2]) ∧
        ∀ s ∈ segs, ∀ x ∈ s, nid ≤ x ∧ x < nidF := by
  intro rest
  induction rest with
  | nil =>
    intro fromLoc nid r ns nidF h
    simp only [interpGo, Except.ok.injEq, Prod.mk.injEq] at h
    obtain ⟨rfl, rfl, rfl⟩ := h
    exact ⟨le_refl _, [], rfl, rfl, by simp⟩
  | cons toRef rest ih =>
    intro fromLoc nid r ns nidF h
    rw [interpGo] at h
    cases hint : interior thr (les fromLoc (locIdx toRef)) nid with
    | error e => rw [hint] at h; cases h
    | ok r1 =>
      rw [hint] at h
      dsimp only at h
      cases hgo : interpGo les locIdx thr (locIdx toRef) rest r1.2.2 with
      | error e =>
        rw [hgo] at h
        cases h
      | ok r2 =>
        rw [hgo] at h
        simp only [Except.ok.injEq, Prod.mk.injEq] at h
        obtain ⟨rfl, rfl, rfl⟩ := h
        have hb1 : nid ≤ r1.2.2 ∧ ∀ x ∈ r1.1, nid ≤ x ∧ x < r1.2.2 := by
          unfold interior at hint
          split at hint
          · cases hint
          · have hbase := interiorLoop_bounds thr
              (triples (les fromLoc (locIdx toRef))) nid
            have heq : interiorLoop thr (triples (les fromLoc (locIdx toRef))) nid = r1 := by
              injection hint
            rw [heq] at hbase
            exact hbase
        have hih := ih (locIdx toRef) r1.2.2 r2.1 r2.2.1 r2.2.2 (by rw [hgo])
        obtain ⟨hle2, segs', hlen', hr', hbound'⟩ := hih
        refine ⟨le_trans hb1.1 hle2, r1.1 :: segs', by simp [hlen'], ?_, ?_⟩
        · rw [List.zip_cons_cons, List.flatMap_cons, ← hr']
          simp
        · intro s hs x hx
          rcases List.mem_cons.mp hs with rfl | hs'
          · have hb := hb1.2 x hx
            exact ⟨hb.1, lt_of_lt_of_le hb.2 hle2⟩
          · have hb := hbound' s hs' x hx
            exact ⟨le_trans hb1.1 hb.1, hb.2⟩

end Rewrite

namespace Rewrite

/-- With empty synthetic blocks at every position, the interleaving is the
original reference list. -/
theorem flatMap_zip_replicate_nil :
    ∀ (rest : List ℤ),
      ((List.replicate rest.length ([] : List ℤ)).zip rest).flatMap
        (fun p => p.1 ++ [p.2]) = rest := by
  intro rest
  induction rest with
  | nil => rfl
  | cons t rest ih => simp [List.replicate, ih]

/-- The original refs form a sublist of any block interleaving. -/
theorem sublist_flatMap_zip :
    ∀ (rest : List ℤ) (segs : List (List ℤ)), segs.length = rest.length →
      List.Sublist rest ((segs.zip rest).flatMap (fun p => p.1 ++ [p.2])) := by
  intro rest
  induction rest with
  | nil => intro segs _; simp
  | cons t rest ih =>
    intro segs h
    cases segs with
    | nil => simp at h
    | cons s segs =>
      simp only [List.zip_cons_cons, List.flatMap_cons, List.append_assoc,
        List.singleton_append]
      have h1 : List.Sublist (t :: rest)
          (t :: (segs.zip rest).flatMap (fun p => p.1 ++ [p.2])) :=
        List.Sublist.cons₂ t (ih segs (by simpa using h))
      exact h1.trans (List.sublist_append_right s _)

/-- A block interleaving of a non-empty reference list is non-empty. -/
theorem flatMap_zip_ne_nil (rest : List ℤ) (segs : List (List ℤ))
    (hlen : segs.length = rest.length) (hne : rest ≠ []) :
    ((segs.zip rest).flatMap (fun p => p.1 ++ [p.2])) ≠ [] := by
  cases rest with
  | nil => exact absurd rfl hne
  | cons t rest =>
    cases segs with
    | nil => simp at hlen
    | cons s segs => simp

/-- A block interleaving ends at the last original reference. -/
theorem getLast_flatMap_zip :
    ∀ (rest : List ℤ) (segs : List (List ℤ)), segs.length = rest.length → rest ≠ [] →
      ((segs.zip rest).flatMap (fun p => p.1 ++ [p.2])).getLast? = rest.getLast? := by
  intro rest
  induction rest with
  | nil => intro segs _ hne; exact absurd rfl hne
  | cons t rest ih =>
    intro segs hlen _
    cases segs with
    | nil => simp at hlen
    | cons s segs =>
      cases rest with
      | nil =>
        cases segs with
        | nil => simp
        | cons a b => simp at hlen
      | cons t2 rest2 =>
        have hlen' : segs.length = (t2 :: rest2).length := by simpa using hlen
        have hne2 : (t2 :: rest2) ≠ [] := by simp
        rw [List.zip_cons_cons, List.flatMap_cons,
          List.getLast?_append_of_ne_nil _ (flatMap_zip_ne_nil _ _ hlen' hne2),
          ih segs hlen' hne2]
        simp

end Rewrite

namespace Rewrite

/-- C10: for a way with at least one node reference whose reference list
the rewrite pass emits normally, the emitted list keeps the original refs
in order as a sublist, starts and ends at the original endpoints, and
inserts the freshly allocated synthetic ids only strictly between two
consecutive original refs. -/
theorem c10_refs_subsequence (interp eleInit : Bool) (noEleWays : List ℤ)
    (les : Loc → Loc → List LocationElevation) (locIdx : ℤ → Loc) (thr : ℚ)
    (w : Way) (nid : ℤ) (f : ℤ) (rest : List ℤ)
    (r : List ℤ) (ns : List (ℤ × LocationElevation)) (nidF : ℤ)
    (hw : w.nodes = f :: rest)
    (hok : add_refs interp eleInit noEleWays les locIdx thr w nid = Except.ok (r, ns, nidF)) :
    (List.Sublist w.nodes r ∧ r.head? = w.nodes.head? ∧ r.getLast? = w.nodes.getLast? ∧
      ∃ segs : List (List ℤ), segs.length = rest.length ∧
        r = f :: (segs.zip rest).flatMap (fun p => p.1 ++ [p.2]) ∧
        ∀ s ∈ segs, ∀ x ∈ s, nid ≤ x ∧ x < nidF) := by
  unfold add_refs at hok
  split at hok
  · -- interpolation branch
    unfold interpolateWay at hok
    rw [hw] at hok
    dsimp only at hok
    cases hgo : interpGo les locIdx thr (locIdx f) rest nid with
    | error e => rw [hgo] at hok; cases hok
    | ok r0 =>
      rw [hgo] at hok
      dsimp only at hok
      simp only [Except.ok.injEq, Prod.mk.injEq] at hok
      obtain ⟨rfl, rfl, rfl⟩ := hok
      obtain ⟨hle, segs, hlen, hr0, hbnd⟩ :=
        interpGo_decomp les locIdx thr rest (locIdx f) nid r0.1 r0.2.1 r0.2.2 (by rw [hgo])
      refine ⟨?_, ?_, ?_, segs, hlen, by rw [hr0], hbnd⟩
      · rw [hw]
        exact List.Sublist.cons₂ f (hr0 ▸ sublist_flatMap_zip rest segs hlen)
      · simp [hw]
      · rw [hw]
        cases rest with
        | nil =>
          have hsegs : segs = [] := List.length_eq_zero.mp (by simpa using hlen)
          subst hsegs
          simp_all
        | cons t2 rest2 =>
          have hne : r0.1 ≠ [] := by
            rw [hr0]
            exact flatMap_zip_ne_nil _ segs hlen (by simp)
          rw [show f :: r0.1 = [f] ++ r0.1 from rfl,
            List.getLast?_append_of_ne_nil _ hne, hr0,
            getLast_flatMap_zip _ segs hlen (by simp)]
          simp
  · -- copy branch
    simp only [Except.ok.injEq, Prod.mk.injEq] at hok
    obtain ⟨rfl, rfl, rfl⟩ := hok
    refine ⟨List.Sublist.refl _, rfl, rfl, List.replicate rest.length [], by simp, ?_, ?_⟩
    · rw [hw, flatMap_zip_replicate_nil]
    · intro s hs x hx
      have hs' := List.eq_of_mem_replicate hs
      subst hs'
      simp at hx

/-- Concrete way for the c10 witness. -/
def wC10 : Way := ⟨9, [1, 2], [⟨"highway", "x"⟩]⟩

/-- Three-sample profile whose middle sample deviates by 10 metres. -/
def lesC10 : Loc → Loc → List LocationElevation :=
  fun _ _ => [⟨((0 : ℚ), (0 : ℚ)), 10⟩, ⟨((0 : ℚ), (0 : ℚ)), 20⟩, ⟨((0 : ℚ), (0 : ℚ)), 10⟩]

/-- Location index for the c10 witness. -/
def locIdxC10 : ℤ → Loc := fun _ => ((0 : ℚ), (0 : ℚ))

/-- Witness for c10_refs_subsequence: one synthetic node 100 is inserted
strictly between the two original refs. -/
theorem c10_refs_subsequence_witness :
    (List.Sublist wC10.nodes [1, 100, 2] ∧
      ([1, 100, 2] : List ℤ).head? = wC10.nodes.head? ∧
      ([1, 100, 2] : List ℤ).getLast? = wC10.nodes.getLast? ∧
      ∃ segs : List (List ℤ), segs.length = ([2] : List ℤ).length ∧
        ([1, 100, 2] : List ℤ) = 1 :: (segs.zip [2]).flatMap (fun p => p.1 ++ [p.2]) ∧
        ∀ s ∈ segs, ∀ x ∈ s, 100 ≤ x ∧ x < 101) :=
  c10_refs_subsequence true true [] lesC10 locIdxC10 1 wC10 100 1 [2] [1, 100, 2]
    [(100, ⟨((0 : ℚ), (0 : ℚ)), 20⟩)] 101 rfl (by with_unfolding_all rfl)

end Rewrite

namespace ElevCount

/-- The counters of LocationElevationService (found_custom_, found_srtm_,
found_gmted_) and of RewriteHandler (nodes_with_elevation_,
nodes_with_elevation_not_found_). -/
structure Counters where
  foundCustom : ℕ
  foundSrtm : ℕ
  foundGmted : ℕ
  nodesWithElevation : ℕ
  nodesWithElevationNotFound : ℕ
deriving DecidableEq, Repr

/-- All counters zero, as at the start of the rewrite pass. -/
def countersInit : Counters := ⟨0, 0, 0, 0, 0⟩

/-- std::string::contains, via splitOn. -/
def strContains (s pat : String) : Bool := (s.splitOn pat).length != 1

/-- The counter behaviour of LocationElevationService::elevation(l, count):
the oracle yields the best-priority tile name and the sampled value for a
covered location, none when the R-tree query is empty. On a counted
lookup that yields a value other than NODATA exactly one source counter
is incremented, chosen from the tile filename. -/
def elevation (oracle : Loc → Option (String × ℚ)) (s : Counters) (l : Loc)
    (count : Bool) : ℚ × Counters :=
  match oracle l with
  | none => (kNoDataValue, s)
  | some (fn, ele) =>
    if ele ≠ kNoDataValue ∧ count = true then
      if fn.startsWith "srtm" then (ele, { s with foundSrtm := s.foundSrtm + 1 })
      else if strContains fn "gmted" then (ele, { s with foundGmted := s.foundGmted + 1 })
      else (ele, { s with foundCustom := s.foundCustom + 1 })
    else (ele, s)

/-- The counter-relevant events of the rewrite pass: a retained node visit
(RewriteHandler::node) and an uncounted lookup issued by
LocationElevationService::interpolate. -/
inductive RwEvent where
  | nodeVisit (l : Loc)
  | interpLookup (l : Loc)

/-- One event's effect on the counters. -/
def rwStep (oracle : Loc → Option (String × ℚ)) (addEle eleInit : Bool)
    (s : Counters) : RwEvent → Counters
  | .nodeVisit l =>
    if addEle && eleInit then
      let p := elevation oracle s l true
      if p.1 ≠ kNoDataValue then
        { p.2 with nodesWithElevation := p.2.nodesWithElevation + 1 }
      else
        { p.2 with nodesWithElevationNotFound := p.2.nodesWithElevationNotFound + 1 }
    else s
  | .interpLookup l => (elevation oracle s l false).2

/-- Running the rewrite pass over a stream of counter events. -/
def rwRun (oracle : Loc → Option (String × ℚ)) (addEle eleInit : Bool)
    (s : Counters) (es : List RwEvent) : Counters :=
  es.foldl (rwStep oracle addEle eleInit) s

/-- The C9 sum invariant. -/
def counterInv (s : Counters) : Prop :=
  s.foundCustom + s.foundSrtm + s.foundGmted = s.nodesWithElevation


/-- An uncounted lookup never changes the counters. -/
theorem elevation_uncounted (oracle : Loc → Option (String × ℚ)) (s : Counters)
    (l : Loc) : (elevation oracle s l false).2 = s := by
  unfold elevation
  cases oracle l with
  | none => rfl
  | some p =>
    obtain ⟨fn, ele⟩ := p
    dsimp only
    rw [if_neg (by simp)]

/-- A counted lookup increments the three source counters by one in total
exactly when it returns a value other than NODATA, and never touches the
node counters. -/
theorem elevation_counted (oracle : Loc → Option (String × ℚ)) (s : Counters) (l : Loc) :
    (((elevation oracle s l true).1 ≠ kNoDataValue →
      (elevation oracle s l true).2.foundCustom + (elevation oracle s l true).2.foundSrtm +
          (elevation oracle s l true).2.foundGmted
        = s.foundCustom + s.foundSrtm + s.foundGmted + 1 ∧
      (elevation oracle s l true).2.nodesWithElevation = s.nodesWithElevation) ∧
    ((elevation oracle s l true).1 = kNoDataValue → (elevation oracle s l true).2 = s)) := by
  unfold elevation
  cases oracle l with
  | none =>
    constructor
    · intro h
      exact absurd rfl h
    · intro _
      rfl
  | some p =>
    obtain ⟨fn, ele⟩ := p
    dsimp only
    by_cases hele : ele = kNoDataValue
    · rw [if_neg (by simp [hele])]
      constructor
      · intro h
        exact absurd hele h
      · intro _
        rfl
    · rw [if_pos (by simp [hele])]
      constructor
      · intro _
        split
        · exact ⟨by dsimp only; omega, rfl⟩
        · split
          · exact ⟨by dsimp only; omega, rfl⟩
          · exact ⟨by dsimp only; omega, rfl⟩
      · intro h
        split at h
        · exact absurd h hele
        · split at h
          · exact absurd h hele
          · exact absurd h hele

/-- One step preserves the C9 sum invariant. -/
theorem rwStep_inv (oracle : Loc → Option (String × ℚ)) (addEle eleInit : Bool)
    (s : Counters) (e : RwEvent) (h : counterInv s) :
    counterInv (rwStep oracle addEle eleInit s e) := by
  cases e with
  | interpLookup l =>
    show counterInv (elevation oracle s l false).2
    rw [elevation_uncounted]
    exact h
  | nodeVisit l =>
    show counterInv (if addEle && eleInit then _ else s)
    split
    · have hc := elevation_counted oracle s l
      by_cases hne : (elevation oracle s l true).1 ≠ kNoDataValue
      · rw [if_pos hne]
        obtain ⟨hsum, hnwe⟩ := hc.1 hne
        unfold counterInv at h ⊢
        simp only
        omega
      · rw [if_neg hne]
        have heq := hc.2 (not_not.mp hne)
        unfold counterInv at h ⊢
        simp only [heq]
        exact h
    · exact h

/-- C9: at every point of the rewrite pass, starting from all-zero
counters, found_custom + found_srtm + found_gmted equals
nodes_with_elevation. -/
theorem c9_counter_sum (oracle : Loc → Option (String × ℚ)) (addEle eleInit : Bool)
    (es : List RwEvent) :
    counterInv (rwRun oracle addEle eleInit countersInit es) := by
  have hgen : ∀ (es : List RwEvent) (s : Counters), counterInv s →
      counterInv (rwRun oracle addEle eleInit s es) := by
    intro es
    induction es with
    | nil => intro s h; exact h
    | cons e es ih =>
      intro s h
      exact ih (rwStep oracle addEle eleInit s e) (rwStep_inv oracle addEle eleInit s e h)
  exact hgen es countersInit rfl

end ElevCount

namespace ElevCache

/-- The mutable cache state of LocationElevationService: the LRU list of
filenames (front = most recently used; cache_ holds exactly the same
keys), the byte accumulator mem_size_, and the keys of the tile_size_
map. File sizes themselves are the ambient function size, queried once
per file and stable. -/
structure TileCache where
  lru : List String
  mem : ℕ
  sizeKnown : List String
deriving DecidableEq, Repr

/-- The empty cache. -/
def cacheInit : TileCache := ⟨[], 0, []⟩

/-- The eviction loop of load_tiff, recursing over the reversed LRU so the
C++ back() is the head: while mem_size_ > 0 and mem_size_ + file_size
exceeds cache_limit_, pop the back and subtract its size. -/
def evictLoopRev (size : String → ℕ) (limit fs : ℕ) : List String → ℕ → List String × ℕ
  | [], mem => ([], mem)
  | x :: xs, mem =>
    if 0 < mem ∧ limit < mem + fs then evictLoopRev size limit fs xs (mem - size x)
    else (x :: xs, mem)

/-- The eviction loop on the front-first LRU list. -/
def evictLoop (size : String → ℕ) (limit fs : ℕ) (lru : List String) (mem : ℕ) :
    List String × ℕ :=
  let r := evictLoopRev size limit fs lru.reverse mem
  (r.1.reverse, r.2)

/-- The outcome of load_tiff. -/
inductive LoadResult where
  /-- std::filesystem::file_size threw: the file is absent and its size was
  never cached. -/
  | fsError
  /-- the exists() check failed and nullptr was returned. -/
  | nullHandle
  /-- a non-null handle to the (now cached) tile. -/
  | opened
deriving DecidableEq, Repr

/-- The part of load_tiff after the file-size stat: cache hit moves the
filename to the front of the LRU; otherwise, if the file is gone, return
nullptr; else evict under the byte budget and insert at the front. -/
def loadCont (size : String → ℕ) (onDisk : String → Bool) (limit : ℕ)
    (s : TileCache) (fn : String) : LoadResult × TileCache :=
  if fn ∈ s.lru then
    (LoadResult.opened, { s with lru := fn :: s.lru.filter (fun x => x != fn) })
  else if onDisk fn then
    let ev := evictLoop size limit (size fn) s.lru s.mem
    (LoadResult.opened, { s with lru := fn :: ev.1, mem := ev.2 + size fn })
  else (LoadResult.nullHandle, s)

/-- LocationElevationService::load_tiff. The file-size stat runs before
the cache-hit branch and throws when the file is gone and its size was
never cached. -/
def load_tiff (size : String → ℕ) (onDisk : String → Bool) (limit : ℕ)
    (s : TileCache) (fn : String) : LoadResult × TileCache :=
  if fn ∈ s.sizeKnown then loadCont size onDisk limit s fn
  else if onDisk fn then loadCont size onDisk limit { s with sizeKnown := fn :: s.sizeKnown } fn
  else (LoadResult.fsError, s)

/-- A sequence of load_tiff calls. -/
def run_load (size : String → ℕ) (onDisk : String → Bool) (limit : ℕ)
    (s : TileCache) (fns : List String) : TileCache :=
  fns.foldl (fun s fn => (load_tiff size onDisk limit s fn).2) s

/-- Total size of the cached tiles of a list. -/
def sumSizes (size : String → ℕ) (l : List String) : ℕ := (l.map size).sum

/-- The value/return outcome of LocationElevationService::elevation. -/
inductive ElevOutcome where
  /-- a double was returned. -/
  | value (q : ℚ)
  /-- load_tiff returned nullptr and the caller dereferenced it. -/
  | nullDeref
  /-- a filesystem_error escaped from load_tiff. -/
  | fsException
deriving DecidableEq, Repr

/-- LocationElevationService::elevation(l, count), value behaviour only:
queryBest yields the best-priority tile filename covering l (none when
the R-tree query is empty, in which case NODATA is returned); otherwise
the tile is acquired via load_tiff and sampled. The returned handle is
dereferenced without a null check. -/
def elevation_at (queryBest : Loc → Option String) (sample : String → Loc → ℚ)
    (size : String → ℕ) (onDisk : String → Bool) (limit : ℕ)
    (s : TileCache) (l : Loc) : ElevOutcome × TileCache :=
  match queryBest l with
  | none => (ElevOutcome.value kNoDataValue, s)
  | some fn =>
    match load_tiff size onDisk limit s fn with
    | (LoadResult.fsError, s1) => (ElevOutcome.fsException, s1)
    | (LoadResult.nullHandle, s1) => (ElevOutcome.nullDeref, s1)
    | (LoadResult.opened, s1) => (ElevOutcome.value (sample fn l), s1)

end ElevCache

namespace ElevCache

/-- Size function with a zero-byte tile a and an oversized tile b. -/
def sizeZ : String → ℕ := fun fn => if fn == "a" then 0 else 20

/-- Every file present on disk. -/
def onDiskAll : String → Bool := fun _ => true

/-- Counterexample to C8 as stated: after caching the zero-byte tile a,
mem_size_ is 0, so loading the 20-byte tile b under limit 10 skips the
eviction loop entirely; the LRU then holds 2 entries with 20 > 10
accumulated bytes. -/
theorem c8_counterexample :
    2 ≤ (run_load sizeZ onDiskAll 10 cacheInit ["a", "b"]).lru.length ∧
      10 < (run_load sizeZ onDiskAll 10 cacheInit ["a", "b"]).mem := by
  decide

/-- The eviction loop on the reversed LRU: the byte accumulator stays the
sum of the kept sizes, the kept list is a sublist, and on exit either
everything was evicted or the new file fits. -/
theorem evictLoopRev_spec (size : String → ℕ) (limit fs : ℕ) :
    ∀ (xs : List String) (mem : ℕ), mem = sumSizes size xs →
      (evictLoopRev size limit fs xs mem).2
          = sumSizes size (evictLoopRev size limit fs xs mem).1 ∧
      List.Sublist (evictLoopRev size limit fs xs mem).1 xs ∧
      ((evictLoopRev size limit fs xs mem).2 = 0 ∨
        (evictLoopRev size limit fs xs mem).2 + fs ≤ limit) := by
  intro xs
  induction xs with
  | nil =>
    intro mem h
    rw [show mem = 0 from by simpa [sumSizes] using h]
    exact ⟨by simp [evictLoopRev, sumSizes], List.Sublist.refl _, Or.inl rfl⟩
  | cons x xs ih =>
    intro mem h
    have hsum : mem = size x + sumSizes size xs := by simpa [sumSizes] using h
    by_cases hc : 0 < mem ∧ limit < mem + fs
    · have hrec := ih (mem - size x) (by omega)
      simp only [evictLoopRev, if_pos hc]
      exact ⟨hrec.1, hrec.2.1.trans (List.sublist_cons_self x xs), hrec.2.2⟩
    · simp only [evictLoopRev, if_neg hc]
      refine ⟨by simpa [sumSizes] using h, List.Sublist.refl _, ?_⟩
      omega

/-- The eviction loop on the front-first LRU list. -/
theorem evictLoop_spec (size : String → ℕ) (limit fs : ℕ) (lru : List String) (mem : ℕ)
    (h : mem = sumSizes size lru) :
    (evictLoop size limit fs lru mem).2
        = sumSizes size (evictLoop size limit fs lru mem).1 ∧
    List.Sublist (evictLoop size limit fs lru mem).1 lru ∧
    ((evictLoop size limit fs lru mem).2 = 0 ∨
      (evictLoop size limit fs lru mem).2 + fs ≤ limit) := by
  have hrev : mem = sumSizes size lru.reverse := by
    simpa [sumSizes, List.sum_reverse] using h
  have hs := evictLoopRev_spec size limit fs lru.reverse mem hrev
  unfold evictLoop
  refine ⟨?_, ?_, hs.2.2⟩
  · simpa [sumSizes, List.sum_reverse] using hs.1
  · have := hs.2.1.reverse
    simpa using this

/-- Moving a present element of a duplicate-free list to the front is a
permutation. -/
theorem cons_filter_perm (fn : String) :
    ∀ (l : List String), l.Nodup → fn ∈ l →
      List.Perm (fn :: l.filter (fun x => x != fn)) l := by
  intro l
  induction l with
  | nil => intro _ h; cases h
  | cons a t ih =>
    intro hnd hmem
    by_cases hafn : a = fn
    · subst hafn
      have hnot : a ∉ t := (List.nodup_cons.mp hnd).1
      have hfil : t.filter (fun x => x != a) = t :=
        List.filter_eq_self.mpr (fun x hx => by
          simp [bne_iff_ne]
          exact fun hxa => hnot (hxa ▸ hx))
      simp [hfil]
    · have hmem' : fn ∈ t := by
        rcases List.mem_cons.mp hmem with h' | h'
        · exact absurd h'.symm hafn
        · exact h'
      have hfa : (a != fn) = true := by simpa [bne_iff_ne] using hafn
      simp only [List.filter_cons, hfa, if_pos]
      exact (List.Perm.swap a fn _).trans
        (List.Perm.cons a (ih (List.nodup_cons.mp hnd).2 hmem'))

/-- A non-empty cached list of positive-size tiles occupies at least one
byte. -/
theorem sumSizes_pos (size : String → ℕ) (hpos : ∀ f, 1 ≤ size f) :
    ∀ (l : List String), l ≠ [] → 1 ≤ sumSizes size l := by
  intro l hne
  cases l with
  | nil => exact absurd rfl hne
  | cons x xs =>
    have := hpos x
    simp only [sumSizes, List.map_cons, List.sum_cons]
    omega

/-- The cache invariant: mem_size_ tracks the cached bytes, the LRU is
duplicate-free, and with at least two entries the budget holds. -/
def CacheInv (size : String → ℕ) (limit : ℕ) (s : TileCache) : Prop :=
  s.mem = sumSizes size s.lru ∧ s.lru.Nodup ∧ (2 ≤ s.lru.length → s.mem ≤ limit)

/-- loadCont preserves the cache invariant when all sizes are positive. -/
theorem loadCont_inv (size : String → ℕ) (onDisk : String → Bool) (limit : ℕ)
    (s : TileCache) (fn : String) (hpos : ∀ f, 1 ≤ size f)
    (h : CacheInv size limit s) :
    CacheInv size limit (loadCont size onDisk limit s fn).2 := by
  obtain ⟨hsum, hnd, hbound⟩ := h
  unfold loadCont
  split
  · -- cache hit: the new LRU is a permutation of the old one
    next hmem =>
      have hperm := cons_filter_perm fn s.lru hnd hmem
      refine ⟨?_, ?_, ?_⟩
      · exact hsum.trans ((hperm.map size).sum_eq).symm
      · exact hperm.nodup_iff.mpr hnd
      · intro hlen
        exact hbound (by simpa [hperm.length_eq] using hlen)
  · split
    · -- miss of a present file: evict then insert at the front
      next hmiss _ =>
        have hs := evictLoop_spec size limit (size fn) s.lru s.mem hsum
        set ev := evictLoop size limit (size fn) s.lru s.mem with hev
        refine ⟨?_, ?_, ?_⟩
        · have h1 := hs.1
          simp only [sumSizes, List.map_cons, List.sum_cons] at h1 ⊢
          omega
        · refine List.nodup_cons.mpr ⟨?_, hs.2.1.nodup hnd⟩
          intro hfn
          exact hmiss (hs.2.1.subset hfn)
        · intro hlen
          have hne : ev.1 ≠ [] := by
            intro hnil
            simp [hnil] at hlen
          have hposum : 1 ≤ sumSizes size ev.1 := sumSizes_pos size hpos ev.1 hne
          have h1 := hs.1
          rcases hs.2.2 with hz | hfit
          · rw [h1] at hz
            omega
          · show ev.2 + size fn ≤ limit
            exact hfit
    · -- missing file: nullptr, state unchanged
      exact ⟨hsum, hnd, hbound⟩

/-- load_tiff preserves the cache invariant when all sizes are positive. -/
theorem load_tiff_inv (size : String → ℕ) (onDisk : String → Bool) (limit : ℕ)
    (s : TileCache) (fn : String) (hpos : ∀ f, 1 ≤ size f)
    (h : CacheInv size limit s) :
    CacheInv size limit (load_tiff size onDisk limit s fn).2 := by
  unfold load_tiff
  split
  · exact loadCont_inv size onDisk limit s fn hpos h
  · split
    · exact loadCont_inv size onDisk limit _ fn hpos h
    · exact h

/-- C8 (amended): for every sequence of load_tiff calls on tiles of
positive file size, whenever the LRU holds at least two entries the
accumulated bytes stay within cache_limit_. -/
theorem c8_lru_budget (size : String → ℕ) (onDisk : String → Bool) (limit : ℕ)
    (fns : List String) (hpos : ∀ f, 1 ≤ size f) :
    2 ≤ (run_load size onDisk limit cacheInit fns).lru.length →
      (run_load size onDisk limit cacheInit fns).mem ≤ limit := by
  have hgen : ∀ (fns : List String) (s : TileCache), CacheInv size limit s →
      CacheInv size limit (run_load size onDisk limit s fns) := by
    intro fns
    induction fns with
    | nil => intro s h; exact h
    | cons fn fns ih =>
      intro s h
      exact ih (load_tiff size onDisk limit s fn).2 (load_tiff_inv size onDisk limit s fn hpos h)
  exact (hgen fns cacheInit ⟨rfl, List.nodup_nil, by intro h; simp [cacheInit] at h⟩).2.2

/-- Constant positive size function for the c8 witness. -/
def sizeW : String → ℕ := fun _ => 6

/-- Witness for c8_lru_budget: two 6-byte tiles under a 20-byte budget fill
the LRU to 2 entries and 12 accounted bytes, within the budget. -/
theorem c8_lru_budget_witness :
    (run_load sizeW onDiskAll 20 cacheInit ["x", "y"]).mem ≤ 20 :=
  c8_lru_budget sizeW onDiskAll 20 ["x", "y"] (fun _ => (by decide : (1 : ℕ) ≤ 6))
    (by decide)

end ElevCache

namespace ElevCache

/-- 6-byte tiles for the c7 scenario. -/
def sizeC7 : String → ℕ := fun _ => 6

/-- Both tiles present during the warm-up loads. -/
def onDiskC7 : String → Bool := fun _ => true

/-- Tile a has been deleted afterwards; tile b remains. -/
def onDiskC7del : String → Bool := fun f => f == "b"

/-- The R-tree still indexes tile a for every location. -/
def qC7 : Loc → Option String := fun _ => some "a"

/-- Sample oracle for opened tiles. -/
def smC7 : String → Loc → ℚ := fun _ _ => 42

/-- Query location for the c7 scenario. -/
def locC7 : Loc := ((0 : ℚ), (0 : ℚ))

/-- C7 is wrong on the code: after tile a is loaded once (caching its
size), evicted by loading tile b under a 10-byte budget, and deleted from
disk, a query that selects a makes load_tiff return nullptr — and
elevation dereferences that handle (a crash), instead of returning the
NODATA sentinel −32768. -/
theorem c7_null_deref_crash :
    ((run_load sizeC7 onDiskC7 10 cacheInit ["a", "b"]).lru = ["b"] ∧
      "a" ∈ (run_load sizeC7 onDiskC7 10 cacheInit ["a", "b"]).sizeKnown ∧
      (elevation_at qC7 smC7 sizeC7 onDiskC7del 10
          (run_load sizeC7 onDiskC7 10 cacheInit ["a", "b"]) locC7).1
        = ElevOutcome.nullDeref ∧
      ElevOutcome.nullDeref ≠ ElevOutcome.value kNoDataValue) := by
  refine ⟨by decide, by decide, by decide, ?_⟩
  intro hcon
  cases hcon

end ElevCache

namespace AreaGrid

/-- The C (int) cast on a double: truncation toward zero. -/
def cast_int (q : ℚ) : ℤ := if 0 ≤ q then ⌊q⌋ else ⌈q⌉

/-- The grid cell index consulted by LocationAreaService::get_area:
((int) lat + 90) * 360 + ((int) lon + 180). -/
def grid_index (lon lat : ℚ) : ℤ :=
  (cast_int lat + 90) * 360 + (cast_int lon + 180)

/-- The index of the unit cell containing the point, as the specification
states it: (floor(lat) + 90) * 360 + (floor(lon) + 180). -/
def grid_index_spec (lon lat : ℚ) : ℤ :=
  (⌊lat⌋ + 90) * 360 + (⌊lon⌋ + 180)

/-- Containment in the unit-square polygon built for a cell index by the
LocationAreaService constructor: for index i the ring spans
[i % 360 - 180, i % 360 - 179] x [i / 360 - 90, i / 360 - 89]. -/
def cell_contains (i : ℤ) (lon lat : ℚ) : Prop :=
  ((i % 360 - 180 : ℤ) : ℚ) ≤ lon ∧ lon ≤ ((i % 360 - 180 : ℤ) : ℚ) + 1 ∧
  ((i / 360 - 90 : ℤ) : ℚ) ≤ lat ∧ lat ≤ ((i / 360 - 90 : ℤ) : ℚ) + 1

instance (i : ℤ) (lon lat : ℚ) : Decidable (cell_contains i lon lat) := by
  unfold cell_contains
  infer_instance

/-- C6 is wrong on the code: at lon = 1/2, lat = -1/2 the (int) cast
truncates toward zero, so get_area consults cell 32580 although the
floor-based index is 32220; the consulted cell's polygon does not contain
the point, while the floor-indexed cell does. -/
theorem c6_trunc_vs_floor :
    (grid_index (1 / 2 : ℚ) (-1 / 2 : ℚ) = 32580 ∧
      grid_index_spec (1 / 2 : ℚ) (-1 / 2 : ℚ) = 32220 ∧
      grid_index (1 / 2 : ℚ) (-1 / 2 : ℚ) ≠ grid_index_spec (1 / 2 : ℚ) (-1 / 2 : ℚ) ∧
      cell_contains (grid_index_spec (1 / 2 : ℚ) (-1 / 2 : ℚ)) (1 / 2 : ℚ) (-1 / 2 : ℚ) ∧
      ¬ cell_contains (grid_index (1 / 2 : ℚ) (-1 / 2 : ℚ)) (1 / 2 : ℚ) (-1 / 2 : ℚ)) := by
  with_unfolding_all decide

/-- On the non-negative quadrant the code's truncation agrees with the
specification's floor. -/
theorem grid_index_eq_spec_of_nonneg (lon lat : ℚ) (hlon : 0 ≤ lon) (hlat : 0 ≤ lat) :
    grid_index lon lat = grid_index_spec lon lat := by
  unfold grid_index grid_index_spec cast_int
  rw [if_pos hlon, if_pos hlat]

/-- Witness for grid_index_eq_spec_of_nonneg at (1/2, 1/2). -/
theorem grid_index_eq_spec_of_nonneg_witness :
    grid_index (1 / 2 : ℚ) (1 / 2 : ℚ) = grid_index_spec (1 / 2 : ℚ) (1 / 2 : ℚ) :=
  grid_index_eq_spec_of_nonneg (1 / 2) (1 / 2)
    (by with_unfolding_all decide) (by with_unfolding_all decide)

end AreaGrid

namespace Interp

/-- Locations as real pairs (lon, lat). The interpolation geometry of
LocationElevationService::interpolate is modelled over the reals in
exact-arithmetic idealization of the double computations, consistent
with the file-wide idealization of osmium Location fixed-point
coordinates. -/
abbrev RLoc := ℝ × ℝ

/-- The C static_cast to int of a double value that is neither NaN nor out
of int range: truncation toward zero. -/
noncomputable def castIntR (q : ℝ) : ℤ := if 0 ≤ q then ⌊q⌋ else ⌈q⌉

/-- LocationElevationService::interpolate. queryStep yields the
best-priority step width among the tiles intersecting the segment's
envelope (none when the R-tree query is empty, in which case the empty
vector is returned); elev is elevation(loc, false). After
delta_x = to.lon - from.lon, length = sqrt(delta_x^2 + delta_y^2) and
sx = delta_x / length * step_width, the code computes
steps = static_cast of delta_x / sx to int; that cast is undefined
behaviour when the operand is NaN — exactly when delta_x = 0 (a
zero-length or vertical segment makes 0/0 propagate through nx and sx) —
or out of int range, modelled as the error case. Otherwise the loop
emits from + s * (sx, sy) with its elevation for s = 0..steps and a final
entry for the endpoint. -/
noncomputable def interpolate (queryStep : RLoc → RLoc → Option ℝ) (elev : RLoc → ℝ)
    (f t : RLoc) : Except Unit (List (RLoc × ℝ)) :=
  match queryStep f t with
  | none => Except.ok []
  | some step =>
    let dx := t.1 - f.1
    let dy := t.2 - f.2
    let len := Real.sqrt (dx * dx + dy * dy)
    let sx := dx / len * step
    let sy := dy / len * step
    if dx = 0 ∨ dx / sx ≤ -(2 ^ 31) - 1 ∨ (2 ^ 31 : ℝ) ≤ dx / sx then Except.error ()
    else
      Except.ok (((List.range ((castIntR (dx / sx) + 1).toNat)).map
        (fun s => ((f.1 + sx * s, f.2 + sy * s), elev (f.1 + sx * s, f.2 + sy * s))))
        ++ [(t, elev t)])

/-- Modelled from the claim's words: the points from + s * (sx, sy) for
s = 0..steps with steps = floor(dx / sx), each paired with its elevation,
followed by one final element for the point to with its elevation. -/
noncomputable def interpPoints (elev : RLoc → ℝ) (f t : RLoc) (step : ℝ) :
    List (RLoc × ℝ) :=
  let dx := t.1 - f.1
  let dy := t.2 - f.2
  let len := Real.sqrt (dx * dx + dy * dy)
  let sx := dx / len * step
  let sy := dy / len * step
  ((List.range (⌊dx / sx⌋.toNat + 1)).map
    (fun s => ((f.1 + sx * s, f.2 + sy * s), elev (f.1 + sx * s, f.2 + sy * s))))
    ++ [(t, elev t)]

/-- Query oracle for the zero-length counterexample: every segment is
covered by a tile of step width 1. -/
noncomputable def qC4 : RLoc → RLoc → Option ℝ := fun _ _ => some 1

/-- Elevation oracle for the zero-length counterexample. -/
noncomputable def eC4 : RLoc → ℝ := fun _ => 0

/-- The zero-length segment's endpoint. -/
noncomputable def pC4 : RLoc := ((0 : ℝ), (0 : ℝ))

/-- Counterexample to C4 as stated: on a zero-length segment with a
non-empty tile query, delta_x = 0 makes delta_x / sx a 0/0 NaN and the
int cast undefined behaviour — the code does not return the claimed
empty sequence plus the endpoint. -/
theorem c4_zero_length_counterexample :
    interpolate qC4 eC4 pC4 pC4 = Except.error () ∧
      Except.error () ≠ Except.ok [(pC4, eC4 pC4)] := by
  constructor
  · unfold interpolate qC4
    dsimp only
    rw [if_pos]
    exact Or.inl (by norm_num [pC4])
  · intro hcon
    cases hcon

/-- C4 (amended): for a segment covered by tiles of positive best step
width, with distinct longitudes and the step count within int range,
interpolate returns exactly the points from + s * (sx, sy) for
s = 0..floor(dx / sx) with their elevations followed by the endpoint
with its elevation. -/
theorem c4_interpolate_points (queryStep : RLoc → RLoc → Option ℝ) (elev : RLoc → ℝ)
    (f t : RLoc) (step : ℝ)
    (hq : queryStep f t = some step) (hstep : 0 < step)
    (hdx : t.1 - f.1 ≠ 0)
    (hrange : Real.sqrt ((t.1 - f.1) * (t.1 - f.1) + (t.2 - f.2) * (t.2 - f.2)) / step
      < 2 ^ 31) :
    interpolate queryStep elev f t = Except.ok (interpPoints elev f t step) := by
  unfold interpolate
  rw [hq]
  dsimp only
  set dx := t.1 - f.1 with hdxd
  set dy := t.2 - f.2 with hdyd
  set len := Real.sqrt (dx * dx + dy * dy) with hlend
  set sx := dx / len * step with hsxd
  have hlenpos : 0 < len := by
    rw [hlend]
    apply Real.sqrt_pos.mpr
    have h1 : 0 < dx * dx := mul_self_pos.mpr hdx
    have h2 : 0 ≤ dy * dy := mul_self_nonneg dy
    linarith
  have hlen0 : len ≠ 0 := ne_of_gt hlenpos
  have hstep0 : step ≠ 0 := ne_of_gt hstep
  have hkey : dx / sx = len / step := by
    rw [hsxd]
    field_simp
    ring
  have hpos : 0 < dx / sx := by
    rw [hkey]
    exact div_pos hlenpos hstep
  rw [if_neg]
  · unfold interpPoints
    dsimp only
    have hcast : castIntR (dx / sx) = ⌊dx / sx⌋ := by
      unfold castIntR
      rw [if_pos (le_of_lt hpos)]
    have hfl : 0 ≤ ⌊dx / sx⌋ := Int.floor_nonneg.mpr (le_of_lt hpos)
    have htn : (⌊dx / sx⌋ + 1).toNat = ⌊dx / sx⌋.toNat + 1 := by omega
    rw [hcast, htn]
  · push_neg
    refine ⟨hdx, ?_, ?_⟩
    · have : (0 : ℝ) < 2 ^ 31 := by norm_num
      linarith
    · rw [hkey]
      exact hrange

/-- Query oracle for the c4 witness: step width 5 everywhere. -/
noncomputable def qW4 : RLoc → RLoc → Option ℝ := fun _ _ => some 5

/-- Elevation oracle for the c4 witness. -/
noncomputable def eW4 : RLoc → ℝ := fun _ => 7

/-- Start point of the c4 witness segment. -/
noncomputable def fW4 : RLoc := ((0 : ℝ), (0 : ℝ))

/-- End point of the c4 witness segment (length 5, a 3-4-5 triangle). -/
noncomputable def tW4 : RLoc := ((3 : ℝ), (4 : ℝ))

/-- Witness for c4_interpolate_points on the 3-4-5 segment with step
width 5: the hypotheses evaluate concretely (sqrt 25 = 5). -/
theorem c4_interpolate_points_witness :
    interpolate qW4 eW4 fW4 tW4 = Except.ok (interpPoints eW4 fW4 tW4 5) :=
  c4_interpolate_points qW4 eW4 fW4 tW4 5 rfl (by norm_num)
    (by norm_num [tW4, fW4])
    (by
      have h5 : Real.sqrt ((tW4.1 - fW4.1) * (tW4.1 - fW4.1) +
          (tW4.2 - fW4.2) * (tW4.2 - fW4.2)) = 5 := by
        rw [show (tW4.1 - fW4.1) * (tW4.1 - fW4.1) + (tW4.2 - fW4.2) * (tW4.2 - fW4.2)
          = 5 * 5 by norm_num [tW4, fW4]]
        exact Real.sqrt_mul_self (by norm_num)
      rw [h5]
      norm_num)

end Interp
